import Mathlib

/-!
Verification of the SoccerBot chat pipeline (`app.py`).

The development shallowly embeds the pure core of the script:
the keyword-based intent classifier (`is_soccer`), the two mock
structured-data providers (`get_match_summary`, `get_player_stats`,
which serialize Python dicts with `json.dumps(..., ensure_ascii=False)`),
the regex dispatch on the two Korean marker patterns, the guarded
`call_model` wrapper, the script startup checks, and the per-turn
session-history updates.  Python strings are modelled as Lean `String`
(sequences of Unicode scalar values), machine-level details (the
Streamlit UI, the actual network call) are abstracted as explicit
parameters.
-/

namespace SoccerBot

/-! ## String utilities

Python's `k in prompt` substring test and `str.strip()`, modelled on
`List Char`. -/

/-- Whether the list `s` starts with the list `sub` (char-for-char). -/
def charsStartWith : List Char → List Char → Bool
  | [], _ => true
  | _ :: _, [] => false
  | c :: cs, d :: ds => c == d && charsStartWith cs ds

/-- Whether `sub` occurs as a contiguous run somewhere inside `s`
(Python's `sub in s`). -/
def charsContain (sub : List Char) : List Char → Bool
  | [] => charsStartWith sub []
  | d :: ds => charsStartWith sub (d :: ds) || charsContain sub ds

/-- Python's `sub in s` on strings (exact, case-sensitive). -/
def strContains (s sub : String) : Bool :=
  charsContain sub.data s.data

/-- The character class of Python's `str.isspace` / regex `\s` for `str`
patterns: ASCII whitespace plus the Unicode whitespace code points. -/
def pyIsSpace (c : Char) : Bool :=
  c = ' ' || c = '\t' || c = '\n' || c = '\r' || c = '\x0b' || c = '\x0c' ||
  c = '\x1c' || c = '\x1d' || c = '\x1e' || c = '\x1f' || c = '\x85' || c = '\xa0' ||
  c = ' ' || (' ' ≤ c && c ≤ ' ') || c = ' ' || c = ' ' ||
  c = ' ' || c = ' ' || c = '　'

/-- Python's `str.strip()`: drop whitespace from both ends. -/
def pyStrip (cs : List Char) : List Char :=
  ((cs.dropWhile pyIsSpace).reverse.dropWhile pyIsSpace).reverse

/-! ## Intent classifier (`app.py` line 289)

`is_soccer = mode == "Soccer" or (mode == "Auto" and any(k in prompt for k
in SOCCER_KEYWORDS))`.  The sidebar radio restricts `mode` to one of
`"Auto"`, `"Soccer"`, `"General"`, but the classifier itself is a pure
function of the two strings, exactly as in the source. -/

/-- The fixed keyword list `SOCCER_KEYWORDS` (`app.py` lines 174-178). -/
def SOCCER_KEYWORDS : List String :=
  ["축구", "선수", "경기", "골", "리그", "득점", "어시스트",
   "포메이션", "전술", "맨유", "리버풀", "손흥민", "프리미어리그",
   "월드컵", "챔피언스리그", "라리가", "분데스리가", "세리에A"]

/-- The intent classifier (`app.py` line 289). -/
def is_soccer (mode : String) (prompt : String) : Bool :=
  mode == "Soccer" || (mode == "Auto" && SOCCER_KEYWORDS.any fun k => strContains prompt k)

/-! ### Substring containment, characterised mathematically -/

theorem charsStartWith_iff (sub s : List Char) :
    charsStartWith sub s = true ↔ ∃ t, s = sub ++ t := by
  induction sub generalizing s with
  | nil => simp [charsStartWith]
  | cons c cs ih =>
    cases s with
    | nil => simp [charsStartWith]
    | cons d ds =>
      simp only [charsStartWith, Bool.and_eq_true, beq_iff_eq, ih, List.cons_append,
        List.cons.injEq]
      constructor
      · rintro ⟨rfl, t, rfl⟩; exact ⟨t, rfl, rfl⟩
      · rintro ⟨t, rfl, rfl⟩; exact ⟨rfl, t, rfl⟩

theorem charsContain_iff (sub s : List Char) :
    charsContain sub s = true ↔ ∃ pre post, s = pre ++ sub ++ post := by
  induction s with
  | nil =>
    simp only [charsContain, charsStartWith_iff]
    constructor
    · rintro ⟨t, ht⟩
      rcases List.append_eq_nil.mp ht.symm with ⟨h1, h2⟩
      exact ⟨[], [], by simp [h1, h2]⟩
    · rintro ⟨pre, post, h⟩
      rcases List.append_eq_nil.mp h.symm with ⟨h1, h2⟩
      rcases List.append_eq_nil.mp h1 with ⟨h3, h4⟩
      exact ⟨[], by simp [h4]⟩
  | cons d ds ih =>
    simp only [charsContain, Bool.or_eq_true, charsStartWith_iff, ih]
    constructor
    · rintro (⟨t, ht⟩ | ⟨pre, post, h⟩)
      · exact ⟨[], t, by simp [ht]⟩
      · exact ⟨d :: pre, post, by simp [h]⟩
    · rintro ⟨pre, post, h⟩
      cases pre with
      | nil => exact Or.inl ⟨post, by simpa using h⟩
      | cons p ps =>
        simp only [List.cons_append, List.cons.injEq] at h
        exact Or.inr ⟨ps, post, h.2⟩

/-- Python's `sub in s` holds exactly when `sub` occurs verbatim. -/
theorem strContains_iff (s sub : String) :
    strContains s sub = true ↔ ∃ pre post, s.data = pre ++ sub.data ++ post := by
  simp [strContains, charsContain_iff]

/-- C1: the intent classifier is a pure boolean function of the message and
the mode: mode `"Soccer"` always yields `true`; mode `"General"` always
yields `false`; mode `"Auto"` yields `true` iff the message contains at
least one member of `SOCCER_KEYWORDS` as an exact case-sensitive
substring; in particular the empty message yields `false` under `"Auto"`
(and the spec's examples evaluate as stated). -/
theorem c1_intent_classifier (prompt : String) :
    is_soccer "Soccer" prompt = true ∧
    is_soccer "General" prompt = false ∧
    (is_soccer "Auto" prompt = true ↔
      ∃ k ∈ SOCCER_KEYWORDS, ∃ pre post, prompt.data = pre ++ k.data ++ post) ∧
    is_soccer "Auto" "" = false ∧
    is_soccer "Auto" "손흥민 잘해?" = true ∧
    is_soccer "Auto" "hello world" = false := by
  refine ⟨rfl, rfl, ?_, by decide, by decide, by decide⟩
  simp only [is_soccer, Bool.or_eq_true, beq_iff_eq, Bool.and_eq_true, List.any_eq_true,
    strContains_iff]
  constructor
  · rintro (h | ⟨-, k, hk, hsub⟩)
    · exact absurd h (by decide)
    · exact ⟨k, hk, hsub⟩
  · rintro ⟨k, hk, hsub⟩
    exact Or.inr ⟨trivial, k, hk, hsub⟩

/-! ## The two marker regexes (`app.py` lines 305 and 317)

`re.search(r"경기 요약[:：]?\s*(.+?)\s+vs\s+(.+)", prompt, re.IGNORECASE)` and
`re.search(r"선수 통계[:：]?\s*(.+)", prompt, re.IGNORECASE)`.

The matchers below reproduce the backtracking engine's behaviour for
exactly these two patterns: `re.search` tries each start position left to
right; at a position, alternatives of earlier pattern elements are
explored outermost, a greedy quantifier tries the longest repetition
first, a lazy one the shortest, and `.` matches any character except
`'\n'`.  Each quantified element is encoded as the ordered list of the
ways it can split the input, and `List.findSome?` takes the first
alternative whose continuation succeeds.  `IGNORECASE` only affects the
letters `v` and `s` of the patterns (the Hangul literals and the colons
are caseless). -/

/-- Length of the leading run of `\s` characters. -/
def wsRunLen (cs : List Char) : Nat := (cs.takeWhile pyIsSpace).length

/-- Remainders after `\s*`, longest consumption first (greedy). -/
def starWS (cs : List Char) : List (List Char) :=
  ((List.range (wsRunLen cs + 1)).map fun j => cs.drop j).reverse

/-- Remainders after `\s+`, longest consumption first (greedy); empty when
no whitespace is available. -/
def plusWS (cs : List Char) : List (List Char) :=
  ((List.range (wsRunLen cs)).map fun j => cs.drop (j + 1)).reverse

/-- Length of the leading run of non-newline characters (what `.` can
traverse). -/
def dotRunLen (cs : List Char) : Nat := (cs.takeWhile fun c => c != '\n').length

/-- Splits `(captured, rest)` for `(.+?)`, shortest capture first (lazy). -/
def lazyDotPlus (cs : List Char) : List (List Char × List Char) :=
  (List.range (dotRunLen cs)).map fun j => (cs.take (j + 1), cs.drop (j + 1))

/-- Splits for `(.+)`, longest capture first (greedy). -/
def greedyDotPlus (cs : List Char) : List (List Char × List Char) :=
  (lazyDotPlus cs).reverse

/-- Remainders after `[:：]?`: consuming a colon is preferred, skipping is
the fallback (greedy option). -/
def optColon (cs : List Char) : List (List Char) :=
  match cs with
  | c :: r => if c = ':' || c = '：' then [r, c :: r] else [c :: r]
  | [] => [[]]

/-- The pattern letter `v` under `IGNORECASE`. -/
def vChar (c : Char) : Bool := c = 'v' || c = 'V'

/-- The pattern letter `s` under `IGNORECASE` (Python's full casefolding
also lets `ſ` U+017F match `s`). -/
def sChar (c : Char) : Bool := c = 's' || c = 'S' || c = 'ſ'

/-- Literal marker of the pairwise pattern. -/
def litMatchMarker : List Char := "경기 요약".data

/-- Literal marker of the single-entity pattern. -/
def litPlayerMarker : List Char := "선수 통계".data

/-- Attempt the pairwise pattern anchored at the head of `cs`; returns the
two captured groups. -/
def matchP1At (cs : List Char) : Option (List Char × List Char) :=
  if charsStartWith litMatchMarker cs then
    (optColon (cs.drop litMatchMarker.length)).findSome? fun r1 =>
      (starWS r1).findSome? fun r2 =>
        (lazyDotPlus r2).findSome? fun g1r =>
          (plusWS g1r.2).findSome? fun r4 =>
            match r4 with
            | v :: s :: r5 =>
              if vChar v && sChar s then
                (plusWS r5).findSome? fun r6 =>
                  (greedyDotPlus r6).findSome? fun g2r => some (g1r.1, g2r.1)
              else none
            | _ => none
  else none

/-- `re.search` with the pairwise pattern: leftmost start position wins. -/
def searchP1 : List Char → Option (List Char × List Char)
  | [] => matchP1At []
  | c :: cs =>
    match matchP1At (c :: cs) with
    | some r => some r
    | none => searchP1 cs

/-- Attempt the single-entity pattern anchored at the head of `cs`. -/
def matchP2At (cs : List Char) : Option (List Char) :=
  if charsStartWith litPlayerMarker cs then
    (optColon (cs.drop litPlayerMarker.length)).findSome? fun r1 =>
      (starWS r1).findSome? fun r2 =>
        (greedyDotPlus r2).findSome? fun gr => some gr.1
  else none

/-- `re.search` with the single-entity pattern. -/
def searchP2 : List Char → Option (List Char)
  | [] => matchP2At []
  | c :: cs =>
    match matchP2At (c :: cs) with
    | some r => some r
    | none => searchP2 cs

example : searchP1 "경기 요약: Man United vs Liverpool".data
    = some ("Man United".data, "Liverpool".data) := by decide

example : searchP2 "선수 통계: Son Heung-min".data = some "Son Heung-min".data := by decide

example : searchP1 "선수 통계: Son Heung-min".data = none := by decide

example : searchP1 "맨유 이야기 해줘".data = none := by decide

example : searchP2 "맨유 이야기 해줘".data = none := by decide

/-! ## JSON values and `json.dumps`

The structured records are Python dicts serialized with
`json.dumps(..., ensure_ascii=False)`.  JSON values are modelled as a
mutual inductive (objects keep insertion order, as Python dicts do).
Numbers are either integers or decimal literals (`jdec ip fr` is the
literal with integer part `ip` and fraction digits `fr`, so `7.4` is
`jdec 7 [4]`); this captures exactly the decimal round-trip behaviour of
`repr`/`float` for the fixed literals the providers emit. -/

mutual
inductive JVal where
  | jstr : String → JVal
  | jint : Int → JVal
  | jdec : Nat → List Nat → JVal
  | jarr : JArr → JVal
  | jobj : JObj → JVal
inductive JArr where
  | anil : JArr
  | acons : JVal → JArr → JArr
inductive JObj where
  | onil : JObj
  | ocons : String → JVal → JObj → JObj
end

/-- Decimal digit character of `n < 10`. -/
def digChar (n : Nat) : Char := Char.ofNat (48 + n)

/-- Lowercase hex digit character of `n < 16` (as in `'\u%04x' % i`). -/
def hexChar (n : Nat) : Char := Char.ofNat (if n < 10 then 48 + n else 87 + n)

/-- Decimal rendering of a natural number, no leading zeros. -/
def dumpNat (n : Nat) : List Char :=
  if n < 10 then [digChar n]
  else dumpNat (n / 10) ++ [digChar (n % 10)]
decreasing_by exact Nat.div_lt_self (by omega) (by omega)

/-- Decimal rendering of an integer. -/
def dumpInt : Int → List Char
  | .ofNat n => dumpNat n
  | .negSucc n => '-' :: dumpNat (n + 1)

/-- Escaping of one character inside a JSON string, as done by
`json.dumps` with `ensure_ascii=False`: only `"`, `\` and control
characters are escaped, everything else is emitted raw. -/
def escChar (c : Char) : List Char :=
  if c = '"' then ['\\', '"']
  else if c = '\\' then ['\\', '\\']
  else if c = '\n' then ['\\', 'n']
  else if c = '\r' then ['\\', 'r']
  else if c = '\t' then ['\\', 't']
  else if c = '\x08' then ['\\', 'b']
  else if c = '\x0c' then ['\\', 'f']
  else if c.toNat < 32 then ['\\', 'u', '0', '0', hexChar (c.toNat / 16), hexChar (c.toNat % 16)]
  else [c]

/-- Escaping of a whole string body. -/
def escString : List Char → List Char
  | [] => []
  | c :: cs => escChar c ++ escString cs

mutual
/-- `json.dumps(v, ensure_ascii=False)` with the default separators
`", "` and `": "`. -/
def dumpVal : JVal → List Char
  | .jstr s => '"' :: (escString s.data ++ ['"'])
  | .jint n => dumpInt n
  | .jdec ip fr => dumpNat ip ++ '.' :: fr.map digChar
  | .jarr a => '[' :: (dumpArr a ++ [']'])
  | .jobj o => '{' :: (dumpObj o ++ ['}'])
def dumpArr : JArr → List Char
  | .anil => []
  | .acons v .anil => dumpVal v
  | .acons v (.acons w a) => dumpVal v ++ ',' :: ' ' :: dumpArr (.acons w a)
def dumpObj : JObj → List Char
  | .onil => []
  | .ocons k v .onil => '"' :: (escString k.data ++ '"' :: ':' :: ' ' :: dumpVal v)
  | .ocons k v (.ocons k2 v2 o) =>
    ('"' :: (escString k.data ++ '"' :: ':' :: ' ' :: dumpVal v)) ++
      ',' :: ' ' :: dumpObj (.ocons k2 v2 o)
end

/-- Serialization to a Lean string. -/
def jdump (v : JVal) : String := String.mk (dumpVal v)

/-- Field lookup in a JSON object (first binding wins). -/
def jlookup : JObj → String → Option JVal
  | .onil, _ => none
  | .ocons k v rest, key => if k = key then some v else jlookup rest key

/-- Field lookup through a JSON value. -/
def jfield (v : JVal) (key : String) : Option JVal :=
  match v with
  | .jobj o => jlookup o key
  | _ => none

/-! ## The mock structured-data providers (`app.py` lines 181-206) -/

/-- One entry of the `events` list of `get_match_summary`. -/
def evJson (minute : Nat) (team player : String) : JVal :=
  .jobj (.ocons "minute" (.jint minute) (.ocons "team" (.jstr team)
    (.ocons "type" (.jstr "goal") (.ocons "player" (.jstr player) .onil))))

/-- The dict built by `get_match_summary` (`app.py` lines 183-193). -/
def msJson (home away : String) : JVal :=
  .jobj (.ocons "home" (.jstr home) (.ocons "away" (.jstr away)
    (.ocons "score" (.jstr "2-1") (.ocons "events"
      (.jarr (.acons (evJson 12 home "A. Kim") (.acons (evJson 45 away "J. Lee")
        (.acons (evJson 78 home "B. Park") .anil))))
      (.ocons "summary_text"
        (.jstr (home ++ "이(가) " ++ away ++
          "를 상대로 역전승을 거두었습니다. 전반에는 팽팽했으나 후반에 흐름을 바꿨습니다."))
        .onil)))))

/-- `get_match_summary`: the serialized mock match summary. -/
def get_match_summary (home away : String) : String := jdump (msJson home away)

/-- The dict built by `get_player_stats` (`app.py` lines 198-205). -/
def psJson (player_name : String) : JVal :=
  .jobj (.ocons "player" (.jstr player_name) (.ocons "appearances" (.jint 24)
    (.ocons "goals" (.jint 9) (.ocons "assists" (.jint 6)
      (.ocons "rating" (.jdec 7 [4])
        (.ocons "notes"
          (.jstr (player_name ++ "은(는) 이번 시즌 핵심 공격수로 활약 중입니다.")) .onil))))))

/-- `get_player_stats`: the serialized mock player stats. -/
def get_player_stats (player_name : String) : String := jdump (psJson player_name)

/-! ## A decoder modelling `json.loads`

The sidebar debug panels decode the providers' output with `json.loads`
(`app.py` lines 257 and 263), and the spec's round-trip property is about
`loads∘dumps`.  The decoder below models `json.loads` on the grammar
fragment the providers can emit: objects, arrays, strings (with the
escape sequences the encoder knows plus `\/`), and non-negative decimal
numbers with optional sign on integers.  Unsupported parts of the format
(exponents, the literals `true`/`false`/`null`, `\u` escapes denoting
surrogates — Lean `Char` holds Unicode scalar values only) make the
decoder return `none`.  Each parsing function certifies that it consumed
at least one character, which also drives the termination argument. -/

/-- JSON whitespace accepted between tokens by the decoder. -/
def jsonWs (c : Char) : Bool := c = ' ' || c = '\t' || c = '\n' || c = '\r'

/-- Skip inter-token whitespace. -/
def skipWs (cs : List Char) : List Char := cs.dropWhile jsonWs

theorem length_dropWhile_le {α : Type} (p : α → Bool) (l : List α) :
    (l.dropWhile p).length ≤ l.length := by
  induction l with
  | nil => simp
  | cons c cs ih =>
    by_cases h : p c
    · simp [List.dropWhile, h]; omega
    · simp [List.dropWhile, h]

theorem length_dropWhile_lt {α : Type} (p : α → Bool) (l : List α)
    (h : l.takeWhile p ≠ []) : (l.dropWhile p).length < l.length := by
  cases l with
  | nil => simp at h
  | cons c cs =>
    by_cases hc : p c
    · have := length_dropWhile_le p cs
      simp [List.dropWhile, hc]; omega
    · simp [List.takeWhile, hc] at h

theorem skipWs_length_le (cs : List Char) : (skipWs cs).length ≤ cs.length :=
  length_dropWhile_le jsonWs cs

/-- Inverse of a single-character escape (`\"`, `\\`, `\/`, `\b`, `\f`,
`\n`, `\r`, `\t`). -/
def unescChar (e : Char) : Option Char :=
  if e = '"' then some '"'
  else if e = '\\' then some '\\'
  else if e = '/' then some '/'
  else if e = 'b' then some '\x08'
  else if e = 'f' then some '\x0c'
  else if e = 'n' then some '\n'
  else if e = 'r' then some '\r'
  else if e = 't' then some '\t'
  else none

/-- Value of one hex digit. -/
def hexVal (c : Char) : Option Nat :=
  if '0' ≤ c ∧ c ≤ '9' then some (c.toNat - 48)
  else if 'a' ≤ c ∧ c ≤ 'f' then some (c.toNat - 87)
  else if 'A' ≤ c ∧ c ≤ 'F' then some (c.toNat - 55)
  else none

/-- Decode a JSON string body up to and including the closing quote;
returns the decoded characters and the rest of the input.  Raw control
characters are rejected (`json.loads` is strict by default). -/
def parseStrBody : (cs : List Char) → Option (List Char × {r : List Char // r.length < cs.length})
  | [] => none
  | c :: rest =>
    if c = '"' then some ([], ⟨rest, by simp⟩)
    else if c = '\\' then
      match rest with
      | [] => none
      | e :: rest2 =>
        if e = 'u' then
          match rest2 with
          | h1 :: h2 :: h3 :: h4 :: rest3 =>
            match hexVal h1, hexVal h2, hexVal h3, hexVal h4 with
            | some a1, some a2, some a3, some a4 =>
              let code := ((a1 * 16 + a2) * 16 + a3) * 16 + a4
              if code < 0xd800 then
                match parseStrBody rest3 with
                | some p => some (Char.ofNat code :: p.1, ⟨p.2.1, by
                    have hp := p.2.2
                    simp only [List.length_cons]; omega⟩)
                | none => none
              else none
            | _, _, _, _ => none
          | _ => none
        else
          match unescChar e with
          | some c2 =>
            match parseStrBody rest2 with
            | some p => some (c2 :: p.1, ⟨p.2.1, by
                have hp := p.2.2
                simp only [List.length_cons]; omega⟩)
            | none => none
          | none => none
    else if c.toNat < 32 then none
    else
      match parseStrBody rest with
      | some p => some (c :: p.1, ⟨p.2.1, by
          have hp := p.2.2
          simp only [List.length_cons]; omega⟩)
      | none => none

/-- Decimal digit test. -/
def isDig (c : Char) : Bool := '0' ≤ c && c ≤ '9'

/-- Numeric value of a decimal digit character. -/
def digToNat (c : Char) : Nat := c.toNat - 48

/-- Value of a big-endian decimal digit list. -/
def digitsToNat (ds : List Char) : Nat := ds.foldl (fun a c => a * 10 + digToNat c) 0

/-- An integer value with optional minus sign. -/
def mkIntVal (neg : Bool) (n : Nat) : JVal :=
  .jint (if neg then -(n : Int) else (n : Int))

/-- Decode the digits of a number (after an optional sign): an integer
or a decimal literal `digits.digits`. -/
def parseNumTail (neg : Bool) (cs1 : List Char) :
    Option (JVal × {r : List Char // r.length < cs1.length}) :=
  if hd : cs1.takeWhile isDig = [] then none
  else
    match h : cs1.dropWhile isDig with
    | '.' :: r2 =>
      if r2.takeWhile isDig = [] then none
      else if neg then none
      else some (.jdec (digitsToNat (cs1.takeWhile isDig)) ((r2.takeWhile isDig).map digToNat),
        ⟨r2.dropWhile isDig, by
          have h1 := length_dropWhile_lt isDig cs1 hd
          have h2 := length_dropWhile_le isDig r2
          rw [h] at h1; simp only [List.length_cons] at h1; omega⟩)
    | [] => some (mkIntVal neg (digitsToNat (cs1.takeWhile isDig)),
        ⟨[], by have h1 := length_dropWhile_lt isDig cs1 hd; rw [h] at h1; exact h1⟩)
    | c2 :: r2 =>
      if c2 = '.' then none
      else some (mkIntVal neg (digitsToNat (cs1.takeWhile isDig)),
        ⟨c2 :: r2, by have h1 := length_dropWhile_lt isDig cs1 hd; rw [h] at h1; exact h1⟩)

/-- Decode a number token. -/
def parseNum : (cs : List Char) → Option (JVal × {r : List Char // r.length < cs.length})
  | [] => none
  | c :: rest =>
    if c = '-' then
      match parseNumTail true rest with
      | some p => some (p.1, ⟨p.2.1, by
          have hp := p.2.2; simp only [List.length_cons]; omega⟩)
      | none => none
    else
      match parseNumTail false (c :: rest) with
      | some p => some p
      | none => none

mutual
/-- Decode one JSON value from the head of the input. -/
def parseVal : (cs : List Char) → Option (JVal × {r : List Char // r.length < cs.length})
  | [] => none
  | c :: rest =>
    if c = '"' then
      match parseStrBody rest with
      | some (s, ⟨r1, hr1⟩) => some (.jstr (String.mk s), ⟨r1, by
          simp only [List.length_cons]; omega⟩)
      | none => none
    else if c = '{' then
      match parseObjBody (skipWs rest) with
      | some (o, ⟨r1, hr1⟩) => some (.jobj o, ⟨r1, by
          have h1 := skipWs_length_le rest
          simp only [List.length_cons]; omega⟩)
      | none => none
    else if c = '[' then
      match parseArrBody (skipWs rest) with
      | some (a, ⟨r1, hr1⟩) => some (.jarr a, ⟨r1, by
          have h1 := skipWs_length_le rest
          simp only [List.length_cons]; omega⟩)
      | none => none
    else
      match parseNum (c :: rest) with
      | some p => some p
      | none => none
termination_by cs => (cs.length, 0)
decreasing_by
  all_goals simp_wf
  all_goals apply Prod.Lex.left
  all_goals exact Nat.lt_succ_of_le (skipWs_length_le _)

/-- Decode the body of an object after its `{` and leading whitespace:
either the closing `}` or a member list. -/
def parseObjBody : (cs : List Char) → Option (JObj × {r : List Char // r.length < cs.length})
  | [] => none
  | c :: rest =>
    if c = '}' then some (.onil, ⟨rest, by simp⟩)
    else
      match parseMembers (c :: rest) with
      | some p => some p
      | none => none
termination_by cs => (cs.length, 3)
decreasing_by
  apply Prod.Lex.right
  omega

/-- Decode the body of an array after its `[` and leading whitespace:
either the closing `]` or an item list. -/
def parseArrBody : (cs : List Char) → Option (JArr × {r : List Char // r.length < cs.length})
  | [] => none
  | c :: rest =>
    if c = ']' then some (.anil, ⟨rest, by simp⟩)
    else
      match parseItems (c :: rest) with
      | some p => some p
      | none => none
termination_by cs => (cs.length, 3)
decreasing_by
  apply Prod.Lex.right
  omega

/-- Decode the members of an object (at least one `"key": value`
binding, separated by commas, closed by `}`). -/
def parseMembers : (cs : List Char) → Option (JObj × {r : List Char // r.length < cs.length})
  | [] => none
  | c :: rest =>
    if c = '"' then
      match parseStrBody rest with
      | some (k, ⟨r1, hr1⟩) =>
        match h2 : skipWs r1 with
        | [] => none
        | c3 :: r3 =>
          if c3 = ':' then
            match parseVal (skipWs r3) with
            | some (v, ⟨r4, hr4⟩) =>
              match h5 : skipWs r4 with
              | [] => none
              | c5 :: r5 =>
                if c5 = ',' then
                  match parseMembers (skipWs r5) with
                  | some (o, ⟨r6, hr6⟩) => some (.ocons (String.mk k) v o, ⟨r6, by
                      have l2 := skipWs_length_le r1
                      rw [h2] at l2
                      have l3 := skipWs_length_le r3
                      have l5 := skipWs_length_le r4
                      rw [h5] at l5
                      have l6 := skipWs_length_le r5
                      simp only [List.length_cons] at l2 l5 ⊢; omega⟩)
                  | none => none
                else if c5 = '}' then some (.ocons (String.mk k) v .onil, ⟨r5, by
                    have l2 := skipWs_length_le r1
                    rw [h2] at l2
                    have l3 := skipWs_length_le r3
                    have l5 := skipWs_length_le r4
                    rw [h5] at l5
                    simp only [List.length_cons] at l2 l5 ⊢; omega⟩)
                else none
            | none => none
          else none
      | none => none
    else none
termination_by cs => (cs.length, 1)
decreasing_by
  · apply Prod.Lex.left
    have l2 := skipWs_length_le r1
    rw [h2] at l2
    have l3 := skipWs_length_le r3
    simp only [List.length_cons] at l2 ⊢; omega
  · apply Prod.Lex.left
    have l2 := skipWs_length_le r1
    rw [h2] at l2
    have l3 := skipWs_length_le r3
    have l5 := skipWs_length_le r4
    rw [h5] at l5
    have l6 := skipWs_length_le r5
    simp only [List.length_cons] at l2 l5 ⊢; omega

/-- Decode the items of an array (at least one value, separated by
commas, closed by `]`). -/
def parseItems (cs : List Char) : Option (JArr × {r : List Char // r.length < cs.length}) :=
  match parseVal cs with
  | some (v, ⟨r1, hr1⟩) =>
    match h : skipWs r1 with
    | [] => none
    | c2 :: r2 =>
      if c2 = ',' then
        match parseItems (skipWs r2) with
        | some (ar, ⟨r3, hr3⟩) => some (.acons v ar, ⟨r3, by
            have l2 := skipWs_length_le r1
            rw [h] at l2
            have l3 := skipWs_length_le r2
            simp only [List.length_cons] at l2; omega⟩)
        | none => none
      else if c2 = ']' then some (.acons v .anil, ⟨r2, by
          have l2 := skipWs_length_le r1
          rw [h] at l2
          simp only [List.length_cons] at l2; omega⟩)
      else none
  | none => none
termination_by (cs.length, 2)
decreasing_by
  · apply Prod.Lex.right
    omega
  · apply Prod.Lex.left
    have l2 := skipWs_length_le r1
    rw [h] at l2
    have l3 := skipWs_length_le r2
    simp only [List.length_cons] at l2; omega
end

/-- `parseStrBody` without the length certificate. -/
def parseStr (cs : List Char) : Option (List Char × List Char) :=
  (parseStrBody cs).map fun p => (p.1, p.2.1)

/-- `parseVal` without the length certificate. -/
def parseVal' (cs : List Char) : Option (JVal × List Char) :=
  (parseVal cs).map fun p => (p.1, p.2.1)

/-- `parseMembers` without the length certificate. -/
def parseMembers' (cs : List Char) : Option (JObj × List Char) :=
  (parseMembers cs).map fun p => (p.1, p.2.1)

/-- `parseItems` without the length certificate. -/
def parseItems' (cs : List Char) : Option (JArr × List Char) :=
  (parseItems cs).map fun p => (p.1, p.2.1)

/-- `json.loads`: decode one value surrounded by optional whitespace,
rejecting trailing garbage. -/
def jparse (s : String) : Option JVal :=
  match parseVal' (skipWs s.data) with
  | some (v, r) => if skipWs r = [] then some v else none
  | none => none

/-! ## Round trip: decoding what the encoder emitted

First the string layer: decoding an escaped string body recovers the
original characters. -/

theorem parseStrBody_of_parseStr {cs s r : List Char} (h : parseStr cs = some (s, r)) :
    ∃ hlt : r.length < cs.length, parseStrBody cs = some (s, ⟨r, hlt⟩) := by
  unfold parseStr at h
  match hps : parseStrBody cs with
  | none => rw [hps] at h; simp at h
  | some (s1, ⟨r1, hr1⟩) =>
    rw [hps] at h
    simp only [Option.map_some', Prod.mk.injEq] at h
    obtain ⟨rfl, rfl⟩ := h
    exact ⟨hr1, rfl⟩

theorem parseStr_quote (rest : List Char) : parseStr ('"' :: rest) = some ([], rest) := by
  unfold parseStr parseStrBody
  simp

theorem parseStr_esc {e c2 : Char} (rest s r : List Char)
    (hu : unescChar e = some c2) (he : e ≠ 'u')
    (hp : parseStr rest = some (s, r)) :
    parseStr ('\\' :: e :: rest) = some (c2 :: s, r) := by
  obtain ⟨hlt, hps⟩ := parseStrBody_of_parseStr hp
  unfold parseStr parseStrBody
  simp [he, hu, hps]

theorem parseStr_u {d1 d2 : Char} {a1 a2 : Nat} (rest s r : List Char)
    (h1 : hexVal d1 = some a1) (h2 : hexVal d2 = some a2)
    (hcode : a1 * 16 + a2 < 55296)
    (hp : parseStr rest = some (s, r)) :
    parseStr ('\\' :: 'u' :: '0' :: '0' :: d1 :: d2 :: rest)
      = some (Char.ofNat (a1 * 16 + a2) :: s, r) := by
  obtain ⟨hlt, hps⟩ := parseStrBody_of_parseStr hp
  have hz : hexVal '0' = some 0 := by decide
  unfold parseStr parseStrBody
  simp [h1, h2, hz, hps, hcode]

theorem parseStr_raw {c : Char} (rest s r : List Char)
    (h1 : c ≠ '"') (h2 : c ≠ '\\') (h3 : ¬ c.toNat < 32)
    (hp : parseStr rest = some (s, r)) :
    parseStr (c :: rest) = some (c :: s, r) := by
  obtain ⟨hlt, hps⟩ := parseStrBody_of_parseStr hp
  unfold parseStr parseStrBody
  simp [h1, h2, h3, hps]

theorem hexVal_hexChar : ∀ n, n < 16 → hexVal (hexChar n) = some n := by decide

/-- Decoding an encoder-escaped string body recovers the original
characters and leaves the rest untouched. -/
theorem parseStr_escString : ∀ (s rest : List Char),
    parseStr (escString s ++ '"' :: rest) = some (s, rest)
  | [], rest => by simpa [escString] using parseStr_quote rest
  | c :: cs, rest => by
    have ih := parseStr_escString cs rest
    by_cases e1 : c = '"'
    · subst e1
      simpa [escString, escChar] using parseStr_esc _ _ _ (by decide) (by decide) ih
    · by_cases e2 : c = '\\'
      · subst e2
        simpa [escString, escChar] using parseStr_esc _ _ _ (by decide) (by decide) ih
      · by_cases e3 : c = '\n'
        · subst e3
          simpa [escString, escChar] using parseStr_esc _ _ _ (by decide) (by decide) ih
        · by_cases e4 : c = '\r'
          · subst e4
            simpa [escString, escChar] using parseStr_esc _ _ _ (by decide) (by decide) ih
          · by_cases e5 : c = '\t'
            · subst e5
              simpa [escString, escChar] using parseStr_esc _ _ _ (by decide) (by decide) ih
            · by_cases e6 : c = '\x08'
              · subst e6
                simpa [escString, escChar] using parseStr_esc _ _ _ (by decide) (by decide) ih
              · by_cases e7 : c = '\x0c'
                · subst e7
                  simpa [escString, escChar] using parseStr_esc _ _ _ (by decide) (by decide) ih
                · by_cases e8 : c.toNat < 32
                  · have hesc : escChar c =
                        ['\\', 'u', '0', '0', hexChar (c.toNat / 16), hexChar (c.toNat % 16)] := by
                      simp [escChar, e1, e2, e3, e4, e5, e6, e7, e8]
                    have hx1 : hexVal (hexChar (c.toNat / 16)) = some (c.toNat / 16) :=
                      hexVal_hexChar _ (by omega)
                    have hx2 : hexVal (hexChar (c.toNat % 16)) = some (c.toNat % 16) :=
                      hexVal_hexChar _ (by omega)
                    have hval : c.toNat / 16 * 16 + c.toNat % 16 = c.toNat := by omega
                    have := parseStr_u (escString cs ++ '"' :: rest) cs rest hx1 hx2
                      (by omega) ih
                    rw [hval, Char.ofNat_toNat] at this
                    simpa [escString, hesc] using this
                  · have hesc : escChar c = [c] := by
                      simp [escChar, e1, e2, e3, e4, e5, e6, e7, e8]
                    simpa [escString, hesc] using parseStr_raw _ _ _ e1 e2 e8 ih

/-! ### Unfolding equations for the encoder -/

theorem dumpVal_jstr (s : String) :
    dumpVal (.jstr s) = '"' :: (escString s.data ++ ['"']) := by unfold dumpVal; rfl

theorem dumpVal_jint (n : Int) : dumpVal (.jint n) = dumpInt n := by unfold dumpVal; rfl

theorem dumpVal_jdec (ip : Nat) (fr : List Nat) :
    dumpVal (.jdec ip fr) = dumpNat ip ++ '.' :: fr.map digChar := by unfold dumpVal; rfl

theorem dumpVal_jarr (a : JArr) : dumpVal (.jarr a) = '[' :: (dumpArr a ++ [']']) := by
  unfold dumpVal; rfl

theorem dumpVal_jobj (o : JObj) : dumpVal (.jobj o) = '{' :: (dumpObj o ++ ['}']) := by
  unfold dumpVal; rfl

theorem dumpArr_single (v : JVal) : dumpArr (.acons v .anil) = dumpVal v := by
  unfold dumpArr; rfl

theorem dumpArr_cons (v w : JVal) (a : JArr) :
    dumpArr (.acons v (.acons w a)) = dumpVal v ++ ',' :: ' ' :: dumpArr (.acons w a) := by
  simp [dumpArr]

theorem dumpObj_single (k : String) (v : JVal) :
    dumpObj (.ocons k v .onil) = '"' :: (escString k.data ++ '"' :: ':' :: ' ' :: dumpVal v) := by
  unfold dumpObj; rfl

theorem dumpObj_cons (k : String) (v : JVal) (k2 : String) (v2 : JVal) (o : JObj) :
    dumpObj (.ocons k v (.ocons k2 v2 o))
      = ('"' :: (escString k.data ++ '"' :: ':' :: ' ' :: dumpVal v)) ++
        ',' :: ' ' :: dumpObj (.ocons k2 v2 o) := by
  simp [dumpObj]

/-! ### The number layer -/

theorem digToNat_digChar : ∀ d, d < 10 → digToNat (digChar d) = d := by decide

theorem isDig_digChar : ∀ d, d < 10 → isDig (digChar d) = true := by decide

theorem dumpNat_all_isDig (n : Nat) : ∀ c ∈ dumpNat n, isDig c = true := by
  induction n using Nat.strong_induction_on with
  | _ n ih =>
    unfold dumpNat
    by_cases h : n < 10
    · simp [h, isDig_digChar n h]
    · rw [if_neg h]
      intro c hc
      rcases List.mem_append.mp hc with hc | hc
      · exact ih (n / 10) (Nat.div_lt_self (by omega) (by omega)) c hc
      · simp at hc; subst hc; exact isDig_digChar _ (by omega)

theorem dumpNat_ne_nil (n : Nat) : dumpNat n ≠ [] := by
  unfold dumpNat
  by_cases h : n < 10 <;> simp [h]

theorem digitsToNat_dumpNat (n : Nat) : digitsToNat (dumpNat n) = n := by
  induction n using Nat.strong_induction_on with
  | _ n ih =>
    unfold dumpNat
    by_cases h : n < 10
    · rw [if_pos h]
      simp [digitsToNat, digToNat_digChar n h]
    · rw [if_neg h]
      have ihd := ih (n / 10) (Nat.div_lt_self (by omega) (by omega))
      simp only [digitsToNat] at ihd ⊢
      rw [List.foldl_append, ihd]
      simp only [List.foldl_cons, List.foldl_nil]
      rw [digToNat_digChar _ (by omega)]
      omega

theorem takeWhile_append_all {p : Char → Bool} :
    ∀ (ds rest : List Char), (∀ c ∈ ds, p c = true) →
      (∀ c t, rest = c :: t → p c = false) →
      (ds ++ rest).takeWhile p = ds ∧ (ds ++ rest).dropWhile p = rest
  | [], rest, _, h2 => by
    cases rest with
    | nil => simp
    | cons c t => simp [List.takeWhile, List.dropWhile, h2 c t rfl]
  | d :: ds, rest, h1, h2 => by
    have hd : p d = true := h1 d (by simp)
    have ih := takeWhile_append_all ds rest (fun c hc => h1 c (by simp [hc])) h2
    simp [List.takeWhile, List.dropWhile, hd, ih.1, ih.2]

/-- What may legally follow a serialized number so that the decoder stops
exactly there (inside encoder output this is `,`, `}`, `]` or the end). -/
def numStop : List Char → Prop
  | [] => True
  | c :: _ => isDig c = false ∧ c ≠ '.'

/-- `parseNum` without the length certificate. -/
def parseJNum (cs : List Char) : Option (JVal × List Char) :=
  (parseNum cs).map fun p => (p.1, p.2.1)

theorem map_proj_eq_some {α β : Type} {P : β → Prop} {o : Option (α × {r : β // P r})}
    {a : α} {b : β}
    (h : (o.map fun p => (p.1, p.2.1)) = some (a, b)) : ∃ hp : P b, o = some (a, ⟨b, hp⟩) := by
  match ho : o with
  | none => simp at h
  | some (a1, ⟨b1, hb1⟩) =>
    simp only [Option.map_some', Prod.mk.injEq] at h
    obtain ⟨rfl, rfl⟩ := h
    exact ⟨hb1, rfl⟩

/-- `parseNumTail` without the length certificate. -/
def parseNumTail' (neg : Bool) (cs1 : List Char) : Option (JVal × List Char) :=
  (parseNumTail neg cs1).map fun p => (p.1, p.2.1)

theorem parseNumTail_int (neg : Bool) (ds rest : List Char)
    (hne : ds ≠ []) (hdig : ∀ c ∈ ds, isDig c = true) (hstop : numStop rest) :
    parseNumTail' neg (ds ++ rest) = some (mkIntVal neg (digitsToNat ds), rest) := by
  have htw := takeWhile_append_all ds rest hdig
    (fun c t ht => by subst ht; exact hstop.1)
  unfold parseNumTail' parseNumTail
  rw [dif_neg (by rw [htw.1]; exact hne)]
  split
  · rename_i r2 heq
    rw [htw.2] at heq
    subst heq
    exact absurd rfl hstop.2
  · rename_i heq
    rw [htw.2] at heq
    subst heq
    have h1 : List.takeWhile isDig ds = ds := by simpa using htw.1
    simp [h1]
  · rename_i c2 r2 hne2 heq
    rw [htw.2] at heq
    subst heq
    rw [if_neg hne2]
    simp only [Option.map_some']
    rw [htw.1]

theorem parseNumTail_dec (ds fs rest : List Char)
    (hne : ds ≠ []) (hdig : ∀ c ∈ ds, isDig c = true)
    (hfne : fs ≠ []) (hfdig : ∀ c ∈ fs, isDig c = true) (hstop : numStop rest) :
    parseNumTail' false (ds ++ '.' :: (fs ++ rest))
      = some (.jdec (digitsToNat ds) (fs.map digToNat), rest) := by
  have htw := takeWhile_append_all ds ('.' :: (fs ++ rest)) hdig
    (fun c t ht => by cases ht; decide)
  have htw2 := takeWhile_append_all fs rest hfdig
    (fun c t ht => by subst ht; exact hstop.1)
  unfold parseNumTail' parseNumTail
  rw [dif_neg (by rw [htw.1]; exact hne)]
  split
  · rename_i r2 heq
    rw [htw.2] at heq
    simp only [List.cons.injEq, true_and] at heq
    subst heq
    simp [htw.1, htw2.1, htw2.2, hfne]
  · rename_i heq
    rw [htw.2] at heq
    simp at heq
  · rename_i c2 r2 hne2 heq
    rw [htw.2] at heq
    simp only [List.cons.injEq] at heq
    exact absurd heq.1.symm (fun hh => hne2 hh)

theorem parseJNum_of_tail (cs : List Char) (v : JVal) (r : List Char)
    (hhd : ∀ c t, cs = c :: t → c ≠ '-')
    (h : parseNumTail' false cs = some (v, r)) :
    parseJNum cs = some (v, r) := by
  match cs, hhd, h with
  | [], hhd, h =>
    exfalso
    unfold parseNumTail' parseNumTail at h
    simp at h
  | c :: t, hhd, h =>
    obtain ⟨hp, hpt⟩ := map_proj_eq_some h
    unfold parseJNum parseNum
    simp [hhd c t rfl, hpt]

theorem dumpNat_head (n : Nat) : ∃ d t, dumpNat n = d :: t ∧ isDig d = true := by
  rcases hcons : dumpNat n with _ | ⟨d, t⟩
  · exact absurd hcons (dumpNat_ne_nil n)
  · exact ⟨d, t, rfl, dumpNat_all_isDig n d (by rw [hcons]; simp)⟩

theorem parseJNum_dumpInt (n : Int) (rest : List Char) (hstop : numStop rest) :
    parseJNum (dumpInt n ++ rest) = some (.jint n, rest) := by
  cases n with
  | ofNat m =>
    obtain ⟨d, t, hcons, hd⟩ := dumpNat_head m
    have e1 : dumpInt (Int.ofNat m) = dumpNat m := rfl
    have htail := parseNumTail_int false (dumpNat m) rest (dumpNat_ne_nil m)
      (dumpNat_all_isDig m) hstop
    rw [digitsToNat_dumpNat] at htail
    rw [e1]
    refine parseJNum_of_tail _ _ _ ?_ ?_
    · intro c t2 hct he
      rw [hcons, List.cons_append, List.cons.injEq] at hct
      subst he
      rw [hct.1] at hd
      exact absurd hd (by decide)
    · rw [htail]
      rfl
  | negSucc m =>
    have htail := parseNumTail_int true (dumpNat (m + 1)) rest (dumpNat_ne_nil (m + 1))
      (dumpNat_all_isDig (m + 1)) hstop
    rw [digitsToNat_dumpNat] at htail
    obtain ⟨hp, hpt⟩ := map_proj_eq_some htail
    have e1 : dumpInt (Int.negSucc m) = '-' :: dumpNat (m + 1) := rfl
    rw [e1, List.cons_append]
    unfold parseJNum parseNum
    simp [hpt, mkIntVal, Int.negSucc_eq]

theorem parseJNum_dumpDec (ip : Nat) (fr : List Nat) (rest : List Char)
    (hfr : fr ≠ []) (hlt : ∀ d ∈ fr, d < 10) (hstop : numStop rest) :
    parseJNum (dumpVal (.jdec ip fr) ++ rest) = some (.jdec ip fr, rest) := by
  have hmap : (fr.map digChar).map digToNat = fr := by
    rw [List.map_map]
    have : ∀ d ∈ fr, (digToNat ∘ digChar) d = id d := fun d hd => digToNat_digChar d (hlt d hd)
    rw [List.map_congr_left this, List.map_id]
  have htail := parseNumTail_dec (dumpNat ip) (fr.map digChar) rest (dumpNat_ne_nil ip)
    (dumpNat_all_isDig ip) (by simpa using hfr)
    (fun c hc => by
      obtain ⟨d, hd, rfl⟩ := List.mem_map.mp hc
      exact isDig_digChar d (hlt d hd)) hstop
  rw [digitsToNat_dumpNat, hmap] at htail
  rw [dumpVal_jdec, List.append_assoc, List.cons_append]
  refine parseJNum_of_tail _ _ _ ?_ ?_
  · obtain ⟨d, t, hcons, hd⟩ := dumpNat_head ip
    intro c t2 hct he
    rw [hcons, List.cons_append, List.cons.injEq] at hct
    subst he
    rw [hct.1] at hd
    exact absurd hd (by decide)
  · exact htail

/-! ### Heads of encoder output -/

theorem jsonWs_false_of_isDig {c : Char} (h : isDig c = true) : jsonWs c = false := by
  by_cases hw : jsonWs c = true
  · have hc : ((c = ' ' ∨ c = '\t') ∨ c = '\n') ∨ c = '\r' := by simpa [jsonWs] using hw
    rcases hc with ((rfl | rfl) | rfl) | rfl <;> exact absurd h (by decide)
  · simpa using hw

/-- Every serialized value starts with a character that is not JSON
whitespace and is none of the structural closers. -/
theorem dumpVal_head (v : JVal) :
    ∃ c t, dumpVal v = c :: t ∧ jsonWs c = false ∧ c ≠ '}' ∧ c ≠ ']' := by
  cases v with
  | jstr s => exact ⟨'"', _, dumpVal_jstr s, by decide, by decide, by decide⟩
  | jint n =>
    cases n with
    | ofNat m =>
      obtain ⟨d, t, hcons, hd⟩ := dumpNat_head m
      refine ⟨d, t, ?_, jsonWs_false_of_isDig hd, ?_, ?_⟩
      · rw [dumpVal_jint]; exact hcons
      · intro he; subst he; exact absurd hd (by decide)
      · intro he; subst he; exact absurd hd (by decide)
    | negSucc m =>
      exact ⟨'-', _, by rw [dumpVal_jint]; rfl, by decide, by decide, by decide⟩
  | jdec ip fr =>
    obtain ⟨d, t, hcons, hd⟩ := dumpNat_head ip
    refine ⟨d, t ++ '.' :: fr.map digChar, ?_, jsonWs_false_of_isDig hd, ?_, ?_⟩
    · rw [dumpVal_jdec, hcons, List.cons_append]
    · intro he; subst he; exact absurd hd (by decide)
    · intro he; subst he; exact absurd hd (by decide)
  | jarr a => exact ⟨'[', _, dumpVal_jarr a, by decide, by decide, by decide⟩
  | jobj o => exact ⟨'{', _, dumpVal_jobj o, by decide, by decide, by decide⟩

theorem skipWs_cons_of {c : Char} (r : List Char) (h : jsonWs c = false) :
    skipWs (c :: r) = c :: r := by
  simp [skipWs, List.dropWhile, h]

/-- `skipWs` is the identity in front of a serialized value. -/
theorem skipWs_dumpVal (v : JVal) (rest : List Char) :
    skipWs (dumpVal v ++ rest) = dumpVal v ++ rest := by
  obtain ⟨c, t, hc, hws, -, -⟩ := dumpVal_head v
  rw [hc, List.cons_append, skipWs_cons_of _ hws]

/-! ### One-step decoding equations -/

/-- `parseObjBody` without the length certificate. -/
def parseObjBody' (cs : List Char) : Option (JObj × List Char) :=
  (parseObjBody cs).map fun p => (p.1, p.2.1)

/-- `parseArrBody` without the length certificate. -/
def parseArrBody' (cs : List Char) : Option (JArr × List Char) :=
  (parseArrBody cs).map fun p => (p.1, p.2.1)

theorem pv_str (cs' s r : List Char) (h : parseStr cs' = some (s, r)) :
    parseVal' ('"' :: cs') = some (.jstr (String.mk s), r) := by
  obtain ⟨hp, hps⟩ := parseStrBody_of_parseStr h
  unfold parseVal' parseVal
  simp [hps]

theorem pv_obj (rest : List Char) (o : JObj) (r : List Char)
    (h : parseObjBody' (skipWs rest) = some (o, r)) :
    parseVal' ('{' :: rest) = some (.jobj o, r) := by
  obtain ⟨hp, hps⟩ := map_proj_eq_some h
  unfold parseVal' parseVal
  simp [hps]

theorem pv_arr (rest : List Char) (a : JArr) (r : List Char)
    (h : parseArrBody' (skipWs rest) = some (a, r)) :
    parseVal' ('[' :: rest) = some (.jarr a, r) := by
  obtain ⟨hp, hps⟩ := map_proj_eq_some h
  unfold parseVal' parseVal
  simp [hps]

theorem pv_num (c : Char) (rest : List Char) (v : JVal) (r : List Char)
    (h1 : c ≠ '"') (h2 : c ≠ '{') (h3 : c ≠ '[')
    (h : parseJNum (c :: rest) = some (v, r)) :
    parseVal' (c :: rest) = some (v, r) := by
  obtain ⟨hp, hps⟩ := map_proj_eq_some h
  unfold parseVal' parseVal
  simp [h1, h2, h3, hps]

theorem pob_end (r : List Char) : parseObjBody' ('}' :: r) = some (.onil, r) := by
  unfold parseObjBody' parseObjBody
  simp

theorem pob_members (c : Char) (rest : List Char) (o : JObj) (r : List Char) (hc : c ≠ '}')
    (h : parseMembers' (c :: rest) = some (o, r)) :
    parseObjBody' (c :: rest) = some (o, r) := by
  obtain ⟨hp, hps⟩ := map_proj_eq_some h
  unfold parseObjBody' parseObjBody
  simp [hc, hps]

theorem pab_end (r : List Char) : parseArrBody' (']' :: r) = some (.anil, r) := by
  unfold parseArrBody' parseArrBody
  simp

theorem pab_items (c : Char) (rest : List Char) (a : JArr) (r : List Char) (hc : c ≠ ']')
    (h : parseItems' (c :: rest) = some (a, r)) :
    parseArrBody' (c :: rest) = some (a, r) := by
  obtain ⟨hp, hps⟩ := map_proj_eq_some h
  unfold parseArrBody' parseArrBody
  simp [hc, hps]

theorem pm_last (cs' k r1 r3 : List Char) (v : JVal) (r4 r5 : List Char)
    (hk : parseStr cs' = some (k, r1))
    (h2 : skipWs r1 = ':' :: r3)
    (hv : parseVal' (skipWs r3) = some (v, r4))
    (h5 : skipWs r4 = '}' :: r5) :
    parseMembers' ('"' :: cs') = some (.ocons (String.mk k) v .onil, r5) := by
  obtain ⟨hpk, hpks⟩ := parseStrBody_of_parseStr hk
  obtain ⟨hpv, hpvs⟩ := map_proj_eq_some hv
  unfold parseMembers' parseMembers
  rw [if_pos rfl, hpks]
  dsimp only
  split
  · rename_i heq
    rw [h2] at heq
    exact absurd heq (by simp)
  · rename_i c3 r3' heq
    rw [h2] at heq
    simp only [List.cons.injEq] at heq
    obtain ⟨rfl, rfl⟩ := heq
    rw [if_pos rfl, hpvs]
    dsimp only
    split
    · rename_i heq2
      rw [h5] at heq2
      exact absurd heq2 (by simp)
    · rename_i c5 r5' heq2
      rw [h5] at heq2
      simp only [List.cons.injEq] at heq2
      obtain ⟨rfl, rfl⟩ := heq2
      rw [if_neg (by decide), if_pos rfl]
      rfl

theorem pm_cons (cs' k r1 r3 r5 : List Char) (v : JVal) (r4 : List Char) (o : JObj)
    (r6 : List Char)
    (hk : parseStr cs' = some (k, r1))
    (h2 : skipWs r1 = ':' :: r3)
    (hv : parseVal' (skipWs r3) = some (v, r4))
    (h5 : skipWs r4 = ',' :: r5)
    (ho : parseMembers' (skipWs r5) = some (o, r6)) :
    parseMembers' ('"' :: cs') = some (.ocons (String.mk k) v o, r6) := by
  obtain ⟨hpk, hpks⟩ := parseStrBody_of_parseStr hk
  obtain ⟨hpv, hpvs⟩ := map_proj_eq_some hv
  obtain ⟨hpo, hpos⟩ := map_proj_eq_some ho
  unfold parseMembers' parseMembers
  rw [if_pos rfl, hpks]
  dsimp only
  split
  · rename_i heq
    rw [h2] at heq
    exact absurd heq (by simp)
  · rename_i c3 r3' heq
    rw [h2] at heq
    simp only [List.cons.injEq] at heq
    obtain ⟨rfl, rfl⟩ := heq
    rw [if_pos rfl, hpvs]
    dsimp only
    split
    · rename_i heq2
      rw [h5] at heq2
      exact absurd heq2 (by simp)
    · rename_i c5 r5' heq2
      rw [h5] at heq2
      simp only [List.cons.injEq] at heq2
      obtain ⟨rfl, rfl⟩ := heq2
      rw [if_pos rfl, hpos]
      rfl

theorem pi_last (cs : List Char) (v : JVal) (r1 r2 : List Char)
    (hv : parseVal' cs = some (v, r1))
    (h : skipWs r1 = ']' :: r2) :
    parseItems' cs = some (.acons v .anil, r2) := by
  obtain ⟨hpv, hpvs⟩ := map_proj_eq_some hv
  unfold parseItems' parseItems
  rw [hpvs]
  dsimp only
  split
  · rename_i heq
    rw [h] at heq
    exact absurd heq (by simp)
  · rename_i c2 r2' heq
    rw [h] at heq
    simp only [List.cons.injEq] at heq
    obtain ⟨rfl, rfl⟩ := heq
    rw [if_neg (by decide), if_pos rfl]
    rfl

theorem pi_cons (cs : List Char) (v : JVal) (r1 r2 : List Char) (a : JArr) (r3 : List Char)
    (hv : parseVal' cs = some (v, r1))
    (h : skipWs r1 = ',' :: r2)
    (ha : parseItems' (skipWs r2) = some (a, r3)) :
    parseItems' cs = some (.acons v a, r3) := by
  obtain ⟨hpv, hpvs⟩ := map_proj_eq_some hv
  obtain ⟨hpa, hpas⟩ := map_proj_eq_some ha
  unfold parseItems' parseItems
  rw [hpvs]
  dsimp only
  split
  · rename_i heq
    rw [h] at heq
    exact absurd heq (by simp)
  · rename_i c2 r2' heq
    rw [h] at heq
    simp only [List.cons.injEq] at heq
    obtain ⟨rfl, rfl⟩ := heq
    rw [if_pos rfl, hpas]
    rfl

/-! ### Well-formed values

The only constraint is on decimal literals: at least one fraction digit,
each below 10 (the encoder writes one character per digit). -/

mutual
def wfVal : JVal → Bool
  | .jstr _ => true
  | .jint _ => true
  | .jdec _ fr => !fr.isEmpty && fr.all (fun d => d < 10)
  | .jarr a => wfArr a
  | .jobj o => wfObj o
def wfArr : JArr → Bool
  | .anil => true
  | .acons v a => wfVal v && wfArr a
def wfObj : JObj → Bool
  | .onil => true
  | .ocons _ v o => wfVal v && wfObj o
end

theorem wfVal_jdec {ip : Nat} {fr : List Nat} (h : wfVal (.jdec ip fr) = true) :
    fr ≠ [] ∧ ∀ d ∈ fr, d < 10 := by
  unfold wfVal at h
  simp only [Bool.and_eq_true, Bool.not_eq_true', List.isEmpty_eq_false_iff_exists_mem,
    List.all_eq_true, decide_eq_true_eq] at h
  obtain ⟨⟨x, hx⟩, h2⟩ := h
  exact ⟨fun he => by subst he; exact absurd hx (by simp), h2⟩

theorem wfVal_jarr {a : JArr} (h : wfVal (.jarr a) = true) : wfArr a = true := by
  unfold wfVal at h; exact h

theorem wfVal_jobj {o : JObj} (h : wfVal (.jobj o) = true) : wfObj o = true := by
  unfold wfVal at h; exact h

theorem wfArr_acons {v : JVal} {a : JArr} (h : wfArr (.acons v a) = true) :
    wfVal v = true ∧ wfArr a = true := by
  unfold wfArr at h; simpa [Bool.and_eq_true] using h

theorem wfObj_ocons {k : String} {v : JVal} {o : JObj} (h : wfObj (.ocons k v o) = true) :
    wfVal v = true ∧ wfObj o = true := by
  unfold wfObj at h; simpa [Bool.and_eq_true] using h

/-! ### Remaining glue -/

theorem dumpArr_nil : dumpArr .anil = [] := by unfold dumpArr; rfl

theorem dumpObj_nil : dumpObj .onil = [] := by unfold dumpObj; rfl

theorem skipWs_cons_ws {c : Char} (r : List Char) (h : jsonWs c = true) :
    skipWs (c :: r) = skipWs r := by
  simp [skipWs, List.dropWhile, h]

theorem isDig_ne_marks {c : Char} (h : isDig c = true) : c ≠ '"' ∧ c ≠ '{' ∧ c ≠ '[' :=
  ⟨fun he => absurd (he ▸ h) (by decide), fun he => absurd (he ▸ h) (by decide),
    fun he => absurd (he ▸ h) (by decide)⟩

theorem pv_of_parseJNum (cs : List Char) (v : JVal) (r : List Char)
    (hhd : ∀ c t, cs = c :: t → c ≠ '"' ∧ c ≠ '{' ∧ c ≠ '[')
    (h : parseJNum cs = some (v, r)) : parseVal' cs = some (v, r) := by
  match cs, hhd, h with
  | c :: t, hhd, h =>
    exact pv_num c t v r (hhd c t rfl).1 (hhd c t rfl).2.1 (hhd c t rfl).2.2 h
  | [], hhd, h =>
    exfalso
    unfold parseJNum parseNum at h
    simp at h

theorem dumpArr_cons_eq (v : JVal) (a : JArr) : ∃ t, dumpArr (.acons v a) = dumpVal v ++ t := by
  cases a with
  | anil => exact ⟨[], by rw [dumpArr_single, List.append_nil]⟩
  | acons w a2 => exact ⟨_, by rw [dumpArr_cons]⟩

theorem dumpObj_cons_head (k : String) (v : JVal) (o : JObj) :
    ∃ t, dumpObj (.ocons k v o) = '"' :: t := by
  cases o with
  | onil => exact ⟨_, dumpObj_single k v⟩
  | ocons k2 v2 o2 => exact ⟨_, by rw [dumpObj_cons, List.cons_append]⟩

theorem dumpInt_head (n : Int) :
    ∃ c t, dumpInt n = c :: t ∧ c ≠ '"' ∧ c ≠ '{' ∧ c ≠ '[' := by
  cases n with
  | ofNat m =>
    obtain ⟨d, t, hcons, hd⟩ := dumpNat_head m
    obtain ⟨h1, h2, h3⟩ := isDig_ne_marks hd
    exact ⟨d, t, hcons, h1, h2, h3⟩
  | negSucc m => exact ⟨'-', _, rfl, by decide, by decide, by decide⟩

/-! ### The round trip for whole values -/

mutual
/-- Decoding a serialized well-formed value recovers it and leaves the
rest of the input untouched. -/
theorem parse_dump_val (v : JVal) : ∀ (rest : List Char), wfVal v = true → numStop rest →
    parseVal' (dumpVal v ++ rest) = some (v, rest) := by
  intro rest hwf hstop
  match v with
  | .jstr s =>
    have h := pv_str (escString s.data ++ '"' :: rest) s.data rest
      (parseStr_escString s.data rest)
    rw [dumpVal_jstr, List.cons_append, List.append_assoc, List.singleton_append]
    exact h
  | .jint n =>
    rw [dumpVal_jint]
    obtain ⟨c, t, hcons, hc1, hc2, hc3⟩ := dumpInt_head n
    refine pv_of_parseJNum _ _ _ ?_ (parseJNum_dumpInt n rest hstop)
    intro c2 t2 hct
    rw [hcons, List.cons_append, List.cons.injEq] at hct
    rw [← hct.1]
    exact ⟨hc1, hc2, hc3⟩
  | .jdec ip fr =>
    obtain ⟨hfne, hflt⟩ := wfVal_jdec hwf
    obtain ⟨d, t, hcons, hd⟩ := dumpNat_head ip
    refine pv_of_parseJNum _ _ _ ?_ (parseJNum_dumpDec ip fr rest hfne hflt hstop)
    intro c2 t2 hct
    simp only [dumpVal_jdec, hcons, List.cons_append, List.cons.injEq] at hct
    rw [← hct.1]
    exact isDig_ne_marks hd
  | .jarr .anil =>
    rw [dumpVal_jarr, dumpArr_nil]
    have he : (('[' : Char) :: ([] ++ [']'])) ++ rest = '[' :: ']' :: rest := by simp
    rw [he]
    apply pv_arr
    rw [skipWs_cons_of _ (by decide)]
    exact pab_end rest
  | .jarr (.acons w a) =>
    obtain ⟨hw, ha⟩ := wfArr_acons (wfVal_jarr hwf)
    rw [dumpVal_jarr]
    have he : (('[' : Char) :: (dumpArr (.acons w a) ++ [']'])) ++ rest
        = '[' :: (dumpArr (.acons w a) ++ ']' :: rest) := by simp
    rw [he]
    apply pv_arr
    obtain ⟨tl, htl⟩ := dumpArr_cons_eq w a
    rw [htl, List.append_assoc, skipWs_dumpVal, ← List.append_assoc, ← htl]
    obtain ⟨c, t2, hc, hws, hbr1, hbr2⟩ := dumpVal_head w
    have hhead : dumpArr (.acons w a) ++ ']' :: rest = c :: ((t2 ++ tl) ++ ']' :: rest) := by
      rw [htl, hc]; simp
    rw [hhead]
    apply pab_items c _ _ _ hbr2
    rw [← hhead]
    exact parse_dump_items w a rest hw ha
  | .jobj .onil =>
    rw [dumpVal_jobj, dumpObj_nil]
    have he : (('{' : Char) :: ([] ++ ['}'])) ++ rest = '{' :: '}' :: rest := by simp
    rw [he]
    apply pv_obj
    rw [skipWs_cons_of _ (by decide)]
    exact pob_end rest
  | .jobj (.ocons k w o) =>
    obtain ⟨hw, ho⟩ := wfObj_ocons (wfVal_jobj hwf)
    rw [dumpVal_jobj]
    have he : (('{' : Char) :: (dumpObj (.ocons k w o) ++ ['}'])) ++ rest
        = '{' :: (dumpObj (.ocons k w o) ++ '}' :: rest) := by simp
    rw [he]
    apply pv_obj
    obtain ⟨t2, ht2⟩ := dumpObj_cons_head k w o
    have hhead : dumpObj (.ocons k w o) ++ '}' :: rest = '"' :: (t2 ++ '}' :: rest) := by
      rw [ht2]; simp
    rw [hhead, skipWs_cons_of _ (by decide)]
    apply pob_members '"' _ _ _ (by decide)
    rw [← hhead]
    exact parse_dump_members k w o rest hw ho
termination_by sizeOf v

/-- Decoding a serialized non-empty member list recovers it. -/
theorem parse_dump_members (k : String) (v : JVal) (o : JObj) :
    ∀ (rest : List Char), wfVal v = true → wfObj o = true →
    parseMembers' (dumpObj (.ocons k v o) ++ '}' :: rest) = some (.ocons k v o, rest) := by
  intro rest hv ho
  match o with
  | .onil =>
    have hk := parseStr_escString k.data (':' :: ' ' :: (dumpVal v ++ '}' :: rest))
    have hh2 : skipWs (':' :: ' ' :: (dumpVal v ++ '}' :: rest))
        = ':' :: (' ' :: (dumpVal v ++ '}' :: rest)) := skipWs_cons_of _ (by decide)
    have hv4 : parseVal' (skipWs (' ' :: (dumpVal v ++ '}' :: rest)))
        = some (v, '}' :: rest) := by
      rw [skipWs_cons_ws _ (by decide), skipWs_dumpVal]
      exact parse_dump_val v ('}' :: rest) hv ⟨by decide, by decide⟩
    have h5 : skipWs ('}' :: rest) = '}' :: rest := skipWs_cons_of _ (by decide)
    have hm := pm_last _ k.data _ _ v _ _ hk hh2 hv4 h5
    rw [dumpObj_single]
    have he : (('"' : Char) :: (escString k.data ++ '"' :: ':' :: ' ' :: dumpVal v)) ++ '}' :: rest
        = '"' :: (escString k.data ++ '"' :: ':' :: ' ' :: (dumpVal v ++ '}' :: rest)) := by
      simp
    rw [he]
    exact hm
  | .ocons k2 v2 o2 =>
    obtain ⟨hv2, ho2⟩ := wfObj_ocons ho
    have hk := parseStr_escString k.data
      (':' :: ' ' :: (dumpVal v ++ ',' :: ' ' :: (dumpObj (.ocons k2 v2 o2) ++ '}' :: rest)))
    have hh2 : skipWs (':' :: ' ' ::
          (dumpVal v ++ ',' :: ' ' :: (dumpObj (.ocons k2 v2 o2) ++ '}' :: rest)))
        = ':' :: (' ' :: (dumpVal v ++ ',' :: ' ' ::
            (dumpObj (.ocons k2 v2 o2) ++ '}' :: rest))) := skipWs_cons_of _ (by decide)
    have hv4 : parseVal' (skipWs (' ' :: (dumpVal v ++ ',' :: ' ' ::
          (dumpObj (.ocons k2 v2 o2) ++ '}' :: rest))))
        = some (v, ',' :: ' ' :: (dumpObj (.ocons k2 v2 o2) ++ '}' :: rest)) := by
      rw [skipWs_cons_ws _ (by decide), skipWs_dumpVal]
      exact parse_dump_val v _ hv ⟨by decide, by decide⟩
    have h5 : skipWs (',' :: ' ' :: (dumpObj (.ocons k2 v2 o2) ++ '}' :: rest))
        = ',' :: (' ' :: (dumpObj (.ocons k2 v2 o2) ++ '}' :: rest)) :=
      skipWs_cons_of _ (by decide)
    have hrec : parseMembers' (skipWs (' ' :: (dumpObj (.ocons k2 v2 o2) ++ '}' :: rest)))
        = some (.ocons k2 v2 o2, rest) := by
      rw [skipWs_cons_ws _ (by decide)]
      obtain ⟨t2, ht2⟩ := dumpObj_cons_head k2 v2 o2
      have hh : dumpObj (.ocons k2 v2 o2) ++ '}' :: rest = '"' :: (t2 ++ '}' :: rest) := by
        rw [ht2]; simp
      rw [hh, skipWs_cons_of _ (by decide), ← hh]
      exact parse_dump_members k2 v2 o2 rest hv2 ho2
    have hm := pm_cons _ k.data _ _ _ v _ _ _ hk hh2 hv4 h5 hrec
    rw [dumpObj_cons]
    have he : ((('"' : Char) :: (escString k.data ++ '"' :: ':' :: ' ' :: dumpVal v)) ++
          ',' :: ' ' :: dumpObj (.ocons k2 v2 o2)) ++ '}' :: rest
        = '"' :: (escString k.data ++ '"' :: ':' :: ' ' ::
            (dumpVal v ++ ',' :: ' ' :: (dumpObj (.ocons k2 v2 o2) ++ '}' :: rest))) := by
      simp
    rw [he]
    exact hm
termination_by sizeOf v + sizeOf o

/-- Decoding a serialized non-empty item list recovers it. -/
theorem parse_dump_items (v : JVal) (a : JArr) :
    ∀ (rest : List Char), wfVal v = true → wfArr a = true →
    parseItems' (dumpArr (.acons v a) ++ ']' :: rest) = some (.acons v a, rest) := by
  intro rest hv ha
  match a with
  | .anil =>
    rw [dumpArr_single]
    exact pi_last _ v (']' :: rest) rest
      (parse_dump_val v (']' :: rest) hv ⟨by decide, by decide⟩)
      (skipWs_cons_of _ (by decide))
  | .acons w a2 =>
    obtain ⟨hw, ha2⟩ := wfArr_acons ha
    rw [dumpArr_cons]
    have he : (dumpVal v ++ ',' :: ' ' :: dumpArr (.acons w a2)) ++ ']' :: rest
        = dumpVal v ++ ',' :: ' ' :: (dumpArr (.acons w a2) ++ ']' :: rest) := by simp
    rw [he]
    refine pi_cons _ v (',' :: ' ' :: (dumpArr (.acons w a2) ++ ']' :: rest))
      (' ' :: (dumpArr (.acons w a2) ++ ']' :: rest)) _ rest ?_ ?_ ?_
    · exact parse_dump_val v _ hv ⟨by decide, by decide⟩
    · exact skipWs_cons_of _ (by decide)
    · rw [skipWs_cons_ws _ (by decide)]
      obtain ⟨tl, htl⟩ := dumpArr_cons_eq w a2
      rw [htl, List.append_assoc, skipWs_dumpVal, ← List.append_assoc, ← htl]
      exact parse_dump_items w a2 rest hw ha2
termination_by sizeOf v + sizeOf a
end

/-- `json.loads` inverts `json.dumps` on every well-formed value. -/
theorem jparse_jdump (v : JVal) (h : wfVal v = true) : jparse (jdump v) = some v := by
  have hp := parse_dump_val v [] h trivial
  unfold jparse jdump
  have hd : (String.mk (dumpVal v)).data = dumpVal v := rfl
  rw [hd, ← List.append_nil (dumpVal v), skipWs_dumpVal, hp]
  simp [skipWs]

/-- C8: serializing a structured record (match summary or player stats)
to its JSON text form and parsing that text back yields a record equal
field-for-field to the original, for every input string. -/
theorem c8_serialize_roundtrip (home away name : String) :
    jparse (get_match_summary home away) = some (msJson home away) ∧
    jparse (get_player_stats name) = some (psJson name) :=
  ⟨jparse_jdump _ (by simp [msJson, evJson, wfVal, wfArr, wfObj]),
   jparse_jdump _ (by simp [psJson, wfVal, wfObj])⟩

/-- C6: for every player name, `get_player_stats` serializes a record
with exactly `appearances = 24`, `goals = 9`, `assists = 6`,
`rating = 7.4` (the decimal literal `jdec 7 [4]`, which serializes to
`"7.4"`), the `player` field equal to the given name, and a `notes`
field containing the given name verbatim. -/
theorem c6_player_stats_record (name : String) :
    get_player_stats name = jdump (psJson name) ∧
    jfield (psJson name) "player" = some (.jstr name) ∧
    jfield (psJson name) "appearances" = some (.jint 24) ∧
    jfield (psJson name) "goals" = some (.jint 9) ∧
    jfield (psJson name) "assists" = some (.jint 6) ∧
    jfield (psJson name) "rating" = some (.jdec 7 [4]) ∧
    jdump (.jdec 7 [4]) = "7.4" ∧
    (∃ notes : String, jfield (psJson name) "notes" = some (.jstr notes) ∧
      ∃ pre post, notes.data = pre ++ name.data ++ post) := by
  refine ⟨rfl, rfl, rfl, rfl, rfl, rfl, ?_, ?_⟩
  · unfold jdump
    rw [dumpVal_jdec]
    unfold dumpNat
    simp only [List.map_cons, List.map_nil]
    decide
  · refine ⟨name ++ "은(는) 이번 시즌 핵심 공격수로 활약 중입니다.", rfl,
      [], "은(는) 이번 시즌 핵심 공격수로 활약 중입니다.".data, ?_⟩
    rfl

/-- C7: `get_match_summary` is deterministic and side-effect-free (it is
the pure serialization of a record built only from its two arguments, so
identical arguments give byte-identical output); the record always has
score `"2-1"` and the same three scripted events attributed to the two
entities, and the given names appear verbatim in `home`, `away` and
within `summary_text`. -/
theorem c7_match_summary_record (home away : String) :
    get_match_summary home away = jdump (msJson home away) ∧
    jfield (msJson home away) "score" = some (.jstr "2-1") ∧
    jfield (msJson home away) "home" = some (.jstr home) ∧
    jfield (msJson home away) "away" = some (.jstr away) ∧
    jfield (msJson home away) "events" = some (.jarr (.acons (evJson 12 home "A. Kim")
      (.acons (evJson 45 away "J. Lee") (.acons (evJson 78 home "B. Park") .anil)))) ∧
    (∀ m t p, jfield (evJson m t p) "minute" = some (.jint m) ∧
      jfield (evJson m t p) "team" = some (.jstr t) ∧
      jfield (evJson m t p) "type" = some (.jstr "goal") ∧
      jfield (evJson m t p) "player" = some (.jstr p)) ∧
    (∃ stext : String, jfield (msJson home away) "summary_text" = some (.jstr stext) ∧
      (∃ pre post, stext.data = pre ++ home.data ++ post) ∧
      (∃ pre post, stext.data = pre ++ away.data ++ post)) := by
  refine ⟨rfl, rfl, rfl, rfl, rfl, fun m t p => ⟨rfl, rfl, rfl, rfl⟩, ?_⟩
  refine ⟨home ++ "이(가) " ++ away ++
    "를 상대로 역전승을 거두었습니다. 전반에는 팽팽했으나 후반에 흐름을 바꿨습니다.", rfl, ?_, ?_⟩
  · refine ⟨[], ("이(가) " ++ away ++
      "를 상대로 역전승을 거두었습니다. 전반에는 팽팽했으나 후반에 흐름을 바꿨습니다.").data, ?_⟩
    show (((home ++ "이(가) ") ++ away) ++
      "를 상대로 역전승을 거두었습니다. 전반에는 팽팽했으나 후반에 흐름을 바꿨습니다.").data = _
    simp
  · refine ⟨(home ++ "이(가) ").data,
      "를 상대로 역전승을 거두었습니다. 전반에는 팽팽했으나 후반에 흐름을 바꿨습니다.".data, ?_⟩
    show (((home ++ "이(가) ") ++ away) ++
      "를 상대로 역전승을 거두었습니다. 전반에는 팽팽했으나 후반에 흐름을 바꿨습니다.").data = _
    simp

/-! ## The per-turn pipeline (`app.py` lines 282-342)

A chat turn: show and append the user message, classify, compose the
message sequence (with the regex dispatch when the intent is domain),
perform the single guarded model call, and append the assistant reply.
The remote call itself is abstracted by a `CallOutcome` parameter:
`success t` is a response with text `t`, `failure e` an exception with
detail `e` caught by the `except` branch. -/

/-- One message dict: `role`, optional `name` (tool turns only), and
`content`. -/
structure Msg where
  role : String
  name : Option String
  content : String
deriving DecidableEq

/-- `{"role": "user", "content": c}`. -/
def mkUser (c : String) : Msg := ⟨"user", none, c⟩

/-- `{"role": "assistant", "content": c}`. -/
def mkAssistant (c : String) : Msg := ⟨"assistant", none, c⟩

/-- `{"role": "tool", "name": n, "content": c}`. -/
def mkTool (n c : String) : Msg := ⟨"tool", some n, c⟩

/-- The SoccerBot system directive (`app.py` lines 295-302). -/
def systemMsg : Msg :=
  ⟨"system", none,
   "당신은 SoccerBot입니다. 축구에 관해 전문적이고 상세하게 한국어로 설명합니다. 경기 요약, 전술 분석, 선수 통계 및 추천을 제공하세요. 사실 기반과 의견을 구분하고, 필요한 경우 예상 라인업이나 전술도 제안하세요. 친근하고 열정적인 톤으로 답변하세요."⟩

/-- Outcome of the one remote invocation, abstracting the network. -/
inductive CallOutcome where
  | success (text : String)
  | failure (err : String)

/-- The `try` branch of `call_model`: a successful response returns its
text, an exception `e` is caught and becomes `f"❌ 모델 호출 중 오류: {e}"`. -/
def attemptCall : CallOutcome → String
  | .success t => t
  | .failure e => "❌ 모델 호출 중 오류: " ++ e

/-- `call_model` (`app.py` lines 208-221): the `client is None` guard in
front of the guarded remote call.  The function is total: no exception
propagates to the caller. -/
def call_model (clientOk : Bool) (outcome : CallOutcome) : String :=
  if clientOk = false then "❌ 모델 호출 불가 — Azure 클라이언트 초기화 실패"
  else attemptCall outcome

/-- The two captured groups of the pairwise pattern, `.strip()`ed
(`app.py` line 307). -/
def matchGroups (prompt : String) : Option (String × String) :=
  (searchP1 prompt.data).map fun g => (String.mk (pyStrip g.1), String.mk (pyStrip g.2))

/-- The captured group of the single-entity pattern, `.strip()`ed
(`app.py` line 319). -/
def playerGroup (prompt : String) : Option String :=
  (searchP2 prompt.data).map fun g => String.mk (pyStrip g)

/-- Composition of the message sequence for one turn (`app.py` lines
294-337); `hist1` is the session history with the user turn already
appended. -/
def composeMessages (isSoccerFlag : Bool) (prompt : String) (hist1 : List Msg) : List Msg :=
  if isSoccerFlag then
    match matchGroups prompt with
    | some (h, a) =>
      [systemMsg, mkUser prompt, mkTool "get_match_summary" (get_match_summary h a)]
    | none =>
      match playerGroup prompt with
      | some p => [systemMsg, mkUser prompt, mkTool "get_player_stats" (get_player_stats p)]
      | none => [systemMsg, mkUser prompt]
  else
    hist1.map fun m => ⟨m.role, none, m.content⟩

/-- What one chat turn produces. -/
structure TurnResult where
  messagesSent : List Msg
  reply : String
  newHistory : List Msg

/-- One full chat turn (`app.py` lines 282-342). -/
def handleTurn (mode : String) (clientOk : Bool) (outcome : CallOutcome)
    (prompt : String) (history : List Msg) : TurnResult :=
  let hist1 := history ++ [mkUser prompt]
  let msgs := composeMessages (is_soccer mode prompt) prompt hist1
  let reply := call_model clientOk outcome
  ⟨msgs, reply, hist1 ++ [mkAssistant reply]⟩

/-! ## Script startup (`app.py` lines 154-171)

`keySet`/`endpointSet` say whether `AZURE_OAI_KEY`/`AZURE_OAI_ENDPOINT`
are set and non-empty (`not AZURE_KEY` in Python), `constructionFails`
whether `AzureOpenAI(...)` raises, `errDetail` the exception text. -/

inductive InitResult where
  | halted (errMsg : String)
  | running (clientOk : Bool)

/-- Whether the script run continues past startup (`st.stop()` halts
the run). -/
def InitResult.keepsRunning : InitResult → Bool
  | .halted _ => false
  | .running _ => true

/-- Startup: missing key or endpoint shows an error and stops the script
(lines 159-161); a raising `AzureOpenAI(...)` constructor is caught,
shows an error and also stops the script (lines 163-171); otherwise the
script continues with a constructed client. -/
def initApp (keySet endpointSet constructionFails : Bool) (errDetail : String) : InitResult :=
  if !keySet || !endpointSet then
    .halted "⚠️ 환경변수 `AZURE_OAI_KEY` 또는 `AZURE_OAI_ENDPOINT`가 설정되어 있지 않습니다. .env 파일을 확인하세요."
  else if constructionFails then
    .halted ("❌ AzureOpenAI 클라이언트 초기화 실패: " ++ errDetail)
  else .running true

/-- Session histories reachable by the app: empty at start and after the
sidebar reset (`app.py` lines 224-225 and 267-269), and otherwise only
extended by whole turns. -/
inductive ReachableHist : List Msg → Prop where
  | init : ReachableHist []
  | step (mode : String) (clientOk : Bool) (outcome : CallOutcome) (prompt : String)
      {h : List Msg} : ReachableHist h →
      ReachableHist (handleTurn mode clientOk outcome prompt h).newHistory

theorem reachable_roles (h : List Msg) (hr : ReachableHist h) :
    ∀ m ∈ h, (m.role = "user" ∨ m.role = "assistant") ∧ m.name = none := by
  induction hr with
  | init => simp
  | step mode ck oc prompt hr ih =>
    intro m hm
    simp only [handleTurn, List.append_assoc] at hm
    rcases List.mem_append.mp hm with hmem | hmem
    · exact ih m hmem
    · rcases List.mem_append.mp hmem with hmem2 | hmem2 <;>
        (simp at hmem2; subst hmem2; simp [mkUser, mkAssistant])

/-! ## The remaining claims -/

/-- C2: with domain intent, the composition follows the three rules in
order — a pairwise-pattern match composes exactly
`[system directive, user turn, tool turn with the serialized
get_match_summary output]`; otherwise a single-entity match composes the
analogous sequence with `get_player_stats`; otherwise the two-element
sequence with no tool turn — and the spec's example prompts capture
exactly the stated (stripped) groups. -/
theorem c2_composition_rules :
    (∀ (prompt : String) (hist1 : List Msg) (h a : String),
        matchGroups prompt = some (h, a) →
        composeMessages true prompt hist1
          = [systemMsg, mkUser prompt, mkTool "get_match_summary" (get_match_summary h a)]) ∧
    (∀ (prompt : String) (hist1 : List Msg) (p : String),
        matchGroups prompt = none → playerGroup prompt = some p →
        composeMessages true prompt hist1
          = [systemMsg, mkUser prompt, mkTool "get_player_stats" (get_player_stats p)]) ∧
    (∀ (prompt : String) (hist1 : List Msg),
        matchGroups prompt = none → playerGroup prompt = none →
        composeMessages true prompt hist1 = [systemMsg, mkUser prompt]) ∧
    matchGroups "경기 요약: Man United vs Liverpool" = some ("Man United", "Liverpool") ∧
    matchGroups "경기 요약: Man United vs Liverpool  " = some ("Man United", "Liverpool") ∧
    playerGroup "선수 통계: Son Heung-min" = some "Son Heung-min" ∧
    matchGroups "선수 통계: Son Heung-min" = none ∧
    matchGroups "맨유 이야기 해줘" = none ∧
    playerGroup "맨유 이야기 해줘" = none := by
  refine ⟨?_, ?_, ?_, by decide, by decide, by decide, by decide, by decide, by decide⟩
  · intro prompt hist1 h a hm
    simp [composeMessages, hm]
  · intro prompt hist1 p hm hp
    simp [composeMessages, hm, hp]
  · intro prompt hist1 hm hp
    simp [composeMessages, hm, hp]

theorem c2_composition_rules_witness :
    composeMessages true "경기 요약: Man United vs Liverpool" []
      = [systemMsg, mkUser "경기 요약: Man United vs Liverpool",
         mkTool "get_match_summary" (get_match_summary "Man United" "Liverpool")] :=
  c2_composition_rules.1 "경기 요약: Man United vs Liverpool" [] "Man United" "Liverpool"
    (by decide)

/-- C3: when the computed intent is general, the message sequence sent to
the model is the entire prior session history including the just-appended
user turn, each turn copied with the same role and content in the same
order, and no system directive is injected (if the history has no system
turn, neither does the sent sequence). -/
theorem c3_general_mode_replay (mode prompt : String) (hist : List Msg)
    (clientOk : Bool) (outcome : CallOutcome)
    (h : is_soccer mode prompt = false) :
    (handleTurn mode clientOk outcome prompt hist).messagesSent
      = (hist ++ [mkUser prompt]).map (fun m => ⟨m.role, none, m.content⟩) ∧
    ((∀ m ∈ hist, m.role ≠ "system") →
      ∀ m ∈ (handleTurn mode clientOk outcome prompt hist).messagesSent,
        m.role ≠ "system") := by
  have hms : (handleTurn mode clientOk outcome prompt hist).messagesSent
      = (hist ++ [mkUser prompt]).map (fun m => ⟨m.role, none, m.content⟩) := by
    simp [handleTurn, composeMessages, h]
  refine ⟨hms, ?_⟩
  intro hh m hm
  rw [hms] at hm
  rcases List.mem_map.mp hm with ⟨m', hm', rfl⟩
  rcases List.mem_append.mp hm' with hmem | hmem
  · exact hh m' hmem
  · simp at hmem; subst hmem; simp [mkUser]

theorem c3_general_mode_replay_witness :
    (handleTurn "General" true (CallOutcome.success "ok") "hello" []).messagesSent
      = ([] ++ [mkUser "hello"]).map (fun (m : Msg) => (⟨m.role, none, m.content⟩ : Msg)) :=
  (c3_general_mode_replay "General" "hello" [] true (CallOutcome.success "ok") (by decide)).1

/-- C4: when the remote invocation fails with detail `e`, `call_model`
returns the human-readable error string embedding `e` (it is a total
function — the exception never propagates), and the session history still
receives exactly one new assistant turn whose content is that error
string, keeping the same shape as on success. -/
theorem c4_invocation_failure (e mode prompt : String) (hist : List Msg) :
    call_model true (.failure e) = "❌ 모델 호출 중 오류: " ++ e ∧
    (∃ pre post, (call_model true (.failure e)).data = pre ++ e.data ++ post) ∧
    (handleTurn mode true (.failure e) prompt hist).newHistory
      = (hist ++ [mkUser prompt]) ++ [mkAssistant (call_model true (.failure e))] := by
  refine ⟨rfl, ⟨"❌ 모델 호출 중 오류: ".data, [], by simp [call_model, attemptCall]⟩, rfl⟩

/-- C5 counterexample: at a concrete configuration whose client
construction fails, the script does not keep running — `st.stop()` halts
the run, contradicting the claimed calls-disabled fallback state. -/
theorem c5_counterexample :
    (initApp true true true "bad config").keepsRunning = false := rfl

/-- C5 (amended): if construction of the remote-model client fails, the
failure is caught at initialization and an error message embedding the
failure detail is shown, but the script then halts via `st.stop()`
instead of falling back to a running calls-disabled state; the
calls-disabled guard inside `call_model` would return the calls-disabled
message, but only ever with no client. -/
theorem c5_construction_failure_halts (d : String) :
    initApp true true true d = .halted ("❌ AzureOpenAI 클라이언트 초기화 실패: " ++ d) ∧
    (∀ outcome, call_model false outcome
      = "❌ 모델 호출 불가 — Azure 클라이언트 초기화 실패") :=
  ⟨rfl, fun _ => rfl⟩

/-- C9: session history starts empty and only ever contains `"user"` and
`"assistant"` turns; each processed user turn appends exactly one user
turn followed by exactly one assistant turn; the system directive and
tool turns composed for a model call are never appended — so the
general-mode replay of a reachable history never contains a system or a
tool turn. -/
theorem c9_history_invariant (h : List Msg) (hr : ReachableHist h) :
    (∀ m ∈ h, (m.role = "user" ∨ m.role = "assistant") ∧ m.name = none) ∧
    (∀ mode clientOk outcome prompt,
      (handleTurn mode clientOk outcome prompt h).newHistory
        = h ++ [mkUser prompt] ++ [mkAssistant (call_model clientOk outcome)]) ∧
    (∀ mode clientOk outcome prompt, is_soccer mode prompt = false →
      ∀ m ∈ (handleTurn mode clientOk outcome prompt h).messagesSent,
        m.role ≠ "system" ∧ m.role ≠ "tool") := by
  refine ⟨reachable_roles h hr, fun mode ck oc prompt => rfl, ?_⟩
  intro mode ck oc prompt hgen m hm
  have hms : (handleTurn mode ck oc prompt h).messagesSent
      = (h ++ [mkUser prompt]).map (fun m => ⟨m.role, none, m.content⟩) := by
    simp [handleTurn, composeMessages, hgen]
  rw [hms] at hm
  rcases List.mem_map.mp hm with ⟨m', hm', rfl⟩
  rcases List.mem_append.mp hm' with hmem | hmem
  · rcases (reachable_roles h hr m' hmem).1 with h1 | h1 <;> rw [h1] <;> exact ⟨by decide, by decide⟩
  · simp at hmem; subst hmem; constructor <;> simp [mkUser]

theorem c9_history_invariant_witness :
    (handleTurn "Auto" true (CallOutcome.success "ok") "hello" []).newHistory
      = [] ++ [mkUser "hello"] ++ [mkAssistant (call_model true (CallOutcome.success "ok"))] :=
  (c9_history_invariant [] ReachableHist.init).2.1 "Auto" true (CallOutcome.success "ok") "hello"

/-- C10: the calls-disabled branch of `call_model` is unreachable during
a chat turn: whenever startup lets the script keep running, the client
flag is true — both missing configuration and construction failure halt
the script first — and `call_model` then always takes the try-branch
(`attemptCall`), never the calls-disabled message. -/
theorem c10_disabled_branch_unreachable (ks es cf : Bool) (d : String) (b : Bool)
    (h : initApp ks es cf d = .running b) :
    b = true ∧ ∀ outcome, call_model b outcome = attemptCall outcome := by
  unfold initApp at h
  by_cases h1 : (!ks || !es) = true
  · rw [if_pos h1] at h; exact absurd h (by simp)
  · rw [if_neg h1] at h
    by_cases h2 : cf = true
    · rw [if_pos h2] at h; exact absurd h (by simp)
    · rw [if_neg h2] at h
      simp only [InitResult.running.injEq] at h
      subst h
      exact ⟨rfl, fun _ => rfl⟩

theorem c10_disabled_branch_unreachable_witness :
    true = true ∧ ∀ outcome, call_model true outcome = attemptCall outcome :=
  c10_disabled_branch_unreachable true true false "" true rfl

end SoccerBot